import Mathlib

/-!
Shallow embedding of the transport core of kuasar-io/ttrpc-rust:
`src/asynchronous/fdstore.rs` (the persistent message store) and
`src/asynchronous/connection.rs` (the connection engine).

Byte streams are modelled as `List Nat` (each element a byte value);
Rust `String`s are modelled by their UTF-8 byte sequence, so `len()`
is the list length.  Machine integers are `Nat` with explicit bounds
(`< 2^64` for `u64`, `< 2^32` for `u32`) where overflow matters.
Fallible operations return `Except Err`.
-/

namespace Ttrpc

/-- The fixed connection-identity width from fdstore.rs: `SOCK_NAME_LEN`. -/
def SOCK_NAME_LEN : Nat := 36

/-- `natToBE w n` is the `w`-byte big-endian encoding of `n` (mod `256^w`),
as produced by tokio's big-endian integer writers. -/
def natToBE : Nat → Nat → List Nat
  | 0, _ => []
  | w + 1, n => natToBE w (n / 256) ++ [n % 256]

/-- Big-endian byte-list to natural number, as tokio's big-endian readers do. -/
def beBytesToNat (l : List Nat) : Nat :=
  l.foldl (fun a b => a * 256 + b) 0

/-- A UTF-8 continuation byte: `0x80 ..= 0xBF`. -/
def isUtf8Cont (b : Nat) : Bool := 0x80 ≤ b && b ≤ 0xBF

/-- Validity of a byte sequence as UTF-8, per RFC 3629 — the check performed
by Rust's `String::from_utf8` in `SockMessage::read_from`. -/
def validUtf8 : List Nat → Bool
  | [] => true
  | b :: rest =>
    if b ≤ 0x7F then validUtf8 rest
    else if 0xC2 ≤ b && b ≤ 0xDF then
      match rest with
      | b1 :: rest1 => isUtf8Cont b1 && validUtf8 rest1
      | [] => false
    else if b == 0xE0 then
      match rest with
      | b1 :: b2 :: rest2 =>
        (0xA0 ≤ b1 && b1 ≤ 0xBF) && isUtf8Cont b2 && validUtf8 rest2
      | _ => false
    else if (0xE1 ≤ b && b ≤ 0xEC) || b == 0xEE || b == 0xEF then
      match rest with
      | b1 :: b2 :: rest2 => isUtf8Cont b1 && isUtf8Cont b2 && validUtf8 rest2
      | _ => false
    else if b == 0xED then
      match rest with
      | b1 :: b2 :: rest2 =>
        (0x80 ≤ b1 && b1 ≤ 0x9F) && isUtf8Cont b2 && validUtf8 rest2
      | _ => false
    else if b == 0xF0 then
      match rest with
      | b1 :: b2 :: b3 :: rest3 =>
        (0x90 ≤ b1 && b1 ≤ 0xBF) && isUtf8Cont b2 && isUtf8Cont b3 && validUtf8 rest3
      | _ => false
    else if 0xF1 ≤ b && b ≤ 0xF3 then
      match rest with
      | b1 :: b2 :: b3 :: rest3 =>
        isUtf8Cont b1 && isUtf8Cont b2 && isUtf8Cont b3 && validUtf8 rest3
      | _ => false
    else if b == 0xF4 then
      match rest with
      | b1 :: b2 :: b3 :: rest3 =>
        (0x80 ≤ b1 && b1 ≤ 0x8F) && isUtf8Cont b2 && isUtf8Cont b3 && validUtf8 rest3
      | _ => false
    else false

/-- The error variants reachable in fdstore.rs: clean end of stream
(`Error::Eof`) and the generic wrapped failure (`Error::Others`). -/
inductive Err where
  | eof : Err
  | others : String → Err
deriving DecidableEq, Repr

/-- Modelled from the spec: the Wire Message (`proto::GenMessage`, whose
codec is not under src/) is an opaque unit with a self-delimiting
encoding — here a 4-byte big-endian length followed by that many payload
bytes — and an async, fallible serialize/deserialize contract. -/
structure GenMessage where
  payload : List Nat
deriving DecidableEq, Repr

/-- Modelled from the spec: Wire Message serialization (self-delimiting). -/
def GenMessage.write_to (m : GenMessage) : List Nat :=
  natToBE 4 m.payload.length ++ m.payload

/-- Modelled from the spec: Wire Message deserialization from a byte
stream; returns the decoded message and the unconsumed remainder.  A
stream too short for the claimed frame is a decode error, surfaced as a
generic error. -/
def GenMessage.read_from (bytes : List Nat) : Except Err (GenMessage × List Nat) :=
  if bytes.length < 4 then
    .error (.others "failed to read message header")
  else if (bytes.drop 4).length < beBytesToNat (bytes.take 4) then
    .error (.others "failed to read message payload")
  else
    .ok (⟨(bytes.drop 4).take (beBytesToNat (bytes.take 4))⟩,
      (bytes.drop 4).drop (beBytesToNat (bytes.take 4)))

/-- `SockMessage`: the durable record `{ sock_name, id, message }`.
`sock_name` is the UTF-8 byte sequence of the Rust `String`. -/
structure SockMessage where
  sock_name : List Nat
  id : Nat
  message : GenMessage
deriving DecidableEq, Repr

/-- `SockMessage::write_to`: raw socket-name bytes, then the id as a
big-endian `u64` (tokio `write_u64`), then the message's own encoding. -/
def SockMessage.write_to (m : SockMessage) : List Nat :=
  m.sock_name ++ natToBE 8 m.id ++ m.message.write_to

/-- `SockMessage::read_from`: `read_exact` of `SOCK_NAME_LEN` bytes
(an `UnexpectedEof` — hit whenever the stream ends before the buffer is
full, even after a partial read — is mapped to `Err.eof`; on success
`read_exact` returns the full buffer length, so the subsequent
`len < SOCK_NAME_LEN` check cannot fire), then `String::from_utf8`,
then `read_u64` (every failure, end of stream included, mapped to
`Err.others`), then `GenMessage::read_from`. -/
def SockMessage.read_from (bytes : List Nat) : Except Err (SockMessage × List Nat) :=
  if bytes.length < SOCK_NAME_LEN then
    .error .eof
  else if SOCK_NAME_LEN < SOCK_NAME_LEN then
    -- source: `if len < SOCK_NAME_LEN { return Err(...) }`, where `len` is
    -- `read_exact`'s return value, always the full buffer length on success
    .error (.others "read bytes for socket name")
  else if validUtf8 (bytes.take SOCK_NAME_LEN) then
    if (bytes.drop SOCK_NAME_LEN).length < 8 then
      .error (.others "failed to fill whole buffer")
    else
      match GenMessage.read_from ((bytes.drop SOCK_NAME_LEN).drop 8) with
      | .ok (message, rem) =>
        .ok (⟨bytes.take SOCK_NAME_LEN,
          beBytesToNat ((bytes.drop SOCK_NAME_LEN).take 8), message⟩, rem)
      | .error e => .error e
  else
    .error (.others "invalid utf-8 sequence")

/-- The representation invariants a `SockMessage` value inherits from its
Rust types: the name is a 36-byte `String` (hence valid UTF-8), the id is
a `u64`, and the message payload length fits the 4-byte length field. -/
def ValidRecord (m : SockMessage) : Prop :=
  m.sock_name.length = SOCK_NAME_LEN ∧ validUtf8 m.sock_name = true ∧
    m.id < 2 ^ 64 ∧ m.message.payload.length < 2 ^ 32

instance (m : SockMessage) : Decidable (ValidRecord m) := by
  unfold ValidRecord; infer_instance

/-- Concatenation of a list of lists (the nested `for` loops in `dump`). -/
def joinAll {α : Type} : List (List α) → List α
  | [] => []
  | l :: ls => l ++ joinAll ls

/-- The in-memory cache `HashMap<String, Vec<SockMessage>>`, modelled as
an association list keyed by the socket-name byte sequence.  A key absent
from the map is inserted at the end; hash-map value iteration
(`cache.values()` in `dump`) is modelled as iteration in this list
order — one fixed representative of the map's unspecified iteration
order. -/
abbrev Cache := List (List Nat × List SockMessage)

/-- `MessageStore::insert_sock_message`: append to the entry of
`m.sock_name` if present (`get_mut`), otherwise create a fresh
one-element entry (`cache.insert`). -/
def insert_sock_message : Cache → SockMessage → Cache
  | [], m => [(m.sock_name, [m])]
  | (k, v) :: rest, m =>
    if k = m.sock_name then (k, v ++ [m]) :: rest
    else (k, v) :: insert_sock_message rest m

/-- `MessageStore::remove_sock_message`: if the key is present, retain
only the records whose id differs (`v.retain(|x| x.id != id)`); a missing
key leaves the cache untouched. -/
def remove_sock_message : Cache → List Nat → Nat → Cache
  | [], _, _ => []
  | (k, v) :: rest, sock_name, id =>
    if k = sock_name then (k, v.filter (fun x => decide (x.id ≠ id))) :: rest
    else (k, v) :: remove_sock_message rest sock_name id

/-- Hash-map lookup (`cache.get(key)`). -/
def lookupEntry : Cache → List Nat → Option (List SockMessage)
  | [], _ => none
  | (k, v) :: rest, key => if k = key then some v else lookupEntry rest key

/-- `MessageStore::get_messages`: a copy of the entry's sequence, empty
when the key is unknown. -/
def get_messages (cache : Cache) (key : List Nat) : List SockMessage :=
  match lookupEntry cache key with
  | some l => l
  | none => []

/-- `MessageStore`: the durable file's current contents plus the
in-memory cache. -/
structure MessageStore where
  file : List Nat
  cache : Cache
deriving DecidableEq, Repr

/-- The bytes `MessageStore::dump` writes: every record of every entry,
entry by entry, after truncating the file. -/
def dumpBytes (cache : Cache) : List Nat :=
  joinAll (cache.map (fun kv => joinAll (kv.2.map SockMessage.write_to)))

/-- `MessageStore::dump`: truncate and rewrite the durable file from the
in-memory cache. -/
def MessageStore.dump (s : MessageStore) : MessageStore :=
  { s with file := dumpBytes s.cache }

/-- `MessageStore::insert`: `assert_eq!(SOCK_NAME_LEN, sock_name.len())`
(modelled as `none`, the aborted call), then `insert_sock_message`, then
`dump`. -/
def MessageStore.insert (s : MessageStore) (sock_name : List Nat) (id : Nat)
    (m : GenMessage) : Option MessageStore :=
  if SOCK_NAME_LEN = sock_name.length then
    some (MessageStore.dump { s with cache := insert_sock_message s.cache ⟨sock_name, id, m⟩ })
  else
    none

/-- `MessageStore::remove`: `remove_sock_message`, then `dump`. -/
def MessageStore.remove (s : MessageStore) (sock_name : List Nat) (id : Nat) :
    MessageStore :=
  MessageStore.dump { s with cache := remove_sock_message s.cache sock_name id }

/-- The `loop` body of `MessageStore::load`: read records until
`Error::Eof`, inserting each into the cache; any other error is wrapped
and aborts the load.  Termination: a successful read consumes at least
one full record header. -/
def loadLoop (bytes : List Nat) (cache : Cache) : Except Err Cache :=
  match h : SockMessage.read_from bytes with
  | .ok (m, rest) => loadLoop rest (insert_sock_message cache m)
  | .error .eof => .ok cache
  | .error (.others s) =>
    .error (.others ("failed to read message from memfd in fdstore: " ++ s))
termination_by bytes.length
decreasing_by
  unfold SockMessage.read_from at h
  split at h
  · exact absurd h (by simp)
  · rename_i hlen
    split at h
    · exact absurd h (by simp)
    · split at h
      · split at h
        · exact absurd h (by simp)
        · rename_i hshort
          split at h
          · rename_i message rem hgen
            have hg : rem.length + 4 ≤ ((bytes.drop SOCK_NAME_LEN).drop 8).length := by
              unfold GenMessage.read_from at hgen
              split at hgen
              · exact absurd hgen (by simp)
              · rename_i hhdr
                split at hgen
                · exact absurd hgen (by simp)
                · rename_i hpay
                  simp only [Except.ok.injEq, Prod.mk.injEq] at hgen
                  obtain ⟨-, hr⟩ := hgen
                  subst hr
                  simp only [List.length_drop] at hhdr hpay ⊢
                  omega
            simp only [Except.ok.injEq, Prod.mk.injEq] at h
            obtain ⟨-, hr⟩ := h
            subst hr
            have h36 : SOCK_NAME_LEN = 36 := rfl
            rw [h36] at hlen hshort hg
            simp only [List.length_drop] at hg hshort
            omega
          · exact absurd h (by simp)
      · exact absurd h (by simp)

/-- `MessageStore::load`: seek to the start, read every record into a
fresh cache; the durable file's bytes are untouched. -/
def MessageStore.load (bytes : List Nat) : Except Err MessageStore :=
  match loadLoop bytes [] with
  | .ok cache => .ok ⟨bytes, cache⟩
  | .error e => .error e

/-- The records `dump` writes, in the order it writes them. -/
def allRecords (c : Cache) : List SockMessage := joinAll (c.map (fun kv => kv.2))

/-- Well-formedness of the in-memory map: keys are distinct (a hash map)
and every record sits in the entry of its own socket name. -/
def WFCache (c : Cache) : Prop :=
  (c.map (fun kv => kv.1)).Nodup ∧ ∀ kv ∈ c, ∀ m ∈ kv.2, m.sock_name = kv.1

instance (c : Cache) : Decidable (WFCache c) := by
  unfold WFCache; infer_instance

/-- Modelled from the spec: `SendingMessage` (the Outbound Envelope, from
the stream module, not under src/) pairs a Wire Message with a one-shot
result channel; `result_chan` records whether the one-shot sender is
still available. -/
structure SendingMessage where
  msg : GenMessage
  result_chan : Bool

/-- Modelled from the spec: `send_result` on the one-shot channel —
delivers the outcome if the channel has not yet been consumed, and is a
no-op afterwards.  Returns the updated envelope and the outcomes
delivered by this call (none or exactly one). -/
def send_result (s : SendingMessage) (r : Except Err Unit) :
    SendingMessage × List (Except Err Unit) :=
  if s.result_chan then ({ s with result_chan := false }, [r])
  else (s, [])

/-- One iteration of the writer task in `Connection::new`: serialize the
message (outcome supplied by the stream oracle); on failure, report the
failure and invoke the writer delegate's disconnect; then —
unconditionally, on both paths — report success.  Returns the outcomes
delivered on this envelope's channel, in order. -/
def writeLoopBody (env : SendingMessage) (writeResult : Except Err Unit) :
    List (Except Err Unit) :=
  match writeResult with
  | .error e =>
    (send_result env (.error e)).2 ++
      (send_result ((send_result env (.error e)).1) (.ok ())).2
  | .ok _ => (send_result env (.ok ())).2

/-- The writer task: each envelope arrives from `recv()` with a fresh
(unconsumed) one-shot channel and is processed fully before the next is
dequeued; `envs` pairs each dequeued message with its stream-write
outcome.  The result lists, per envelope, the outcomes delivered on that
envelope's channel. -/
def writer_task (envs : List (GenMessage × Except Err Unit)) :
    List (List (Except Err Unit)) :=
  envs.map (fun p => writeLoopBody ⟨p.1, true⟩ p.2)

/-- The delegate calls the read loops make that the claims observe:
`message_store.insert(name, id, msg)` and `handle_msg(id, msg)`. -/
inductive Event where
  | insert : List Nat → Nat → GenMessage → Event
  | handle : Nat → GenMessage → Event
deriving DecidableEq, Repr

/-- `Connection::run`: each successfully decoded inbound frame is handed
to `handle_msg(0, msg)`; `frames` is the sequence of frames decoded
before the loop terminates (read error or shutdown). -/
def runTrace : List GenMessage → List Event
  | [] => []
  | msg :: rest => Event.handle 0 msg :: runTrace rest

/-- The replay prologue of `Connection::run_with_message_store`: the next
fresh id starts at 0 and each stored record with `m.id >= id` bumps it to
`m.id + 1`.  Both `id` and `m.id` are `u64`, so the bump wraps at `2^64`
(release-mode Rust semantics): a replayed record with id `2^64 - 1` makes
the next id 0. -/
def replayNextId (messages : List SockMessage) : Nat :=
  messages.foldl (fun id m => if id ≤ m.id then (m.id + 1) % 2 ^ 64 else id) 0

/-- The fresh-frame loop of `Connection::run_with_message_store`: each
successfully decoded frame is passed to `message_store.insert` (which
asserts the 36-byte name; on a violated assertion the process aborts
inside that call and `handle_msg` is never reached), then to
`handle_msg` with the same id, and the id is incremented.  The id is a
`u64`, so `id += 1` wraps at `2^64` (release-mode Rust semantics). -/
def freshLoopTrace (name : List Nat) : Nat → List GenMessage → List Event
  | _, [] => []
  | id, msg :: rest =>
    Event.insert name id msg ::
      (if name.length = SOCK_NAME_LEN then
        Event.handle id msg :: freshLoopTrace name ((id + 1) % 2 ^ 64) rest
      else [])

/-- `Connection::run_with_message_store`: replay every stored record for
this connection's identity to `handle_msg` with its original id, then run
the fresh-frame loop starting from the computed next id. -/
def runWithMessageStoreTrace (name : List Nat) (stored : List SockMessage)
    (frames : List GenMessage) : List Event :=
  stored.map (fun m => Event.handle m.id m.message) ++
    freshLoopTrace name (replayNextId stored) frames

/-- The id of the first `insert` call in a trace. -/
def firstInsertId : List Event → Option Nat
  | [] => none
  | Event.insert _ id _ :: _ => some id
  | Event.handle _ _ :: rest => firstInsertId rest

/-- A sequence of `MessageStore::insert` calls, one per record; `none` as
soon as one call fails its length assertion. -/
def insertAll (s : MessageStore) : List SockMessage → Option MessageStore
  | [] => some s
  | m :: rest =>
    match s.insert m.sock_name m.id m.message with
    | some s' => insertAll s' rest
    | none => none

/-- A sequence of `MessageStore::remove` calls for one identity. -/
def removeAll (s : MessageStore) (key : List Nat) : List Nat → MessageStore
  | [] => s
  | i :: rest => removeAll (s.remove key i) key rest

/-- A 36-byte connection identity: `"A" * 36`. -/
def nameA : List Nat := List.replicate 36 65

/-- A different 36-byte connection identity: `"B" * 36`. -/
def nameB : List Nat := List.replicate 36 66

def msg1 : GenMessage := ⟨[1, 2, 3]⟩

def msg2 : GenMessage := ⟨[4, 5]⟩

def recA0 : SockMessage := ⟨nameA, 0, msg1⟩

def recA1 : SockMessage := ⟨nameA, 1, msg2⟩

def recA2 : SockMessage := ⟨nameA, 2, msg1⟩

/-- A store with two records under identity `nameA`, as after two inserts. -/
def storeA : MessageStore := ⟨dumpBytes [(nameA, [recA0, recA1])], [(nameA, [recA0, recA1])]⟩

/-!
# Theorems

First the supporting lemmas about the encodings, the cache and the
loops; the claim theorems and their witnesses follow at the end.
-/

theorem length_natToBE (w n : Nat) : (natToBE w n).length = w := by
  induction w generalizing n with
  | zero => rfl
  | succ w ih => simp [natToBE, ih]

theorem beBytesToNat_append_one (l : List Nat) (b : Nat) :
    beBytesToNat (l ++ [b]) = beBytesToNat l * 256 + b := by
  simp [beBytesToNat]

theorem mod_mul_decomp (n t : Nat) (ht : 0 < t) :
    n % (256 * t) = 256 * (n / 256 % t) + n % 256 := by
  have hr : n % 256 < 256 := Nat.mod_lt _ (by norm_num)
  have hc : n / 256 % t < t := Nat.mod_lt _ ht
  have key : n = 256 * t * (n / 256 / t) + (256 * (n / 256 % t) + n % 256) := by
    have a : 256 * (n / 256) + n % 256 = n := Nat.div_add_mod n 256
    have b : t * (n / 256 / t) + n / 256 % t = n / 256 := Nat.div_add_mod (n / 256) t
    calc n = 256 * (n / 256) + n % 256 := a.symm
    _ = 256 * (t * (n / 256 / t) + n / 256 % t) + n % 256 := by rw [b]
    _ = 256 * t * (n / 256 / t) + (256 * (n / 256 % t) + n % 256) := by ring
  calc n % (256 * t)
      = (256 * t * (n / 256 / t) + (256 * (n / 256 % t) + n % 256)) % (256 * t) := by
        rw [← key]
    _ = (256 * (n / 256 % t) + n % 256) % (256 * t) := by rw [Nat.mul_add_mod]
    _ = 256 * (n / 256 % t) + n % 256 := Nat.mod_eq_of_lt (by omega)

theorem beBytesToNat_natToBE (w n : Nat) :
    beBytesToNat (natToBE w n) = n % 256 ^ w := by
  induction w generalizing n with
  | zero => simp [natToBE, beBytesToNat, Nat.mod_one]
  | succ w ih =>
    rw [natToBE, beBytesToNat_append_one, ih]
    have hp : (256 : Nat) ^ (w + 1) = 256 * 256 ^ w := by ring
    have hd := mod_mul_decomp n (256 ^ w) (Nat.pos_pow_of_pos w (by norm_num))
    rw [hp]
    omega

theorem beBytesToNat_natToBE_of_lt {w n : Nat} (h : n < 256 ^ w) :
    beBytesToNat (natToBE w n) = n := by
  rw [beBytesToNat_natToBE, Nat.mod_eq_of_lt h]

theorem gen_read_write (m : GenMessage)
    (h : m.payload.length < 2 ^ 32) (rest : List Nat) :
    GenMessage.read_from (m.write_to ++ rest) = .ok (m, rest) := by
  have hlen : (natToBE 4 m.payload.length).length = 4 := length_natToBE 4 _
  have hb : beBytesToNat (natToBE 4 m.payload.length) = m.payload.length := by
    apply beBytesToNat_natToBE_of_lt
    calc m.payload.length < 2 ^ 32 := h
    _ = 256 ^ 4 := by norm_num
  unfold GenMessage.write_to GenMessage.read_from
  rw [List.append_assoc]
  rw [List.take_left' hlen, List.drop_left' hlen, hb]
  rw [if_neg (by simp [hlen])]
  rw [if_neg (by simp)]
  rw [List.take_left' rfl, List.drop_left' rfl]

theorem sock_read_write (m : SockMessage) (h : ValidRecord m)
    (rest : List Nat) :
    SockMessage.read_from (m.write_to ++ rest) = .ok (m, rest) := by
  obtain ⟨hname, hutf, hid, hpay⟩ := h
  have hbe : (natToBE 8 m.id).length = 8 := length_natToBE 8 _
  have hb : beBytesToNat (natToBE 8 m.id) = m.id := by
    apply beBytesToNat_natToBE_of_lt
    calc m.id < 2 ^ 64 := hid
    _ = 256 ^ 8 := by norm_num
  unfold SockMessage.write_to SockMessage.read_from
  rw [List.append_assoc, List.append_assoc]
  rw [List.take_left' hname, List.drop_left' hname]
  rw [if_neg (by simp [hname, SOCK_NAME_LEN])]
  rw [if_neg (by simp [SOCK_NAME_LEN])]
  rw [if_pos hutf]
  rw [List.take_left' hbe, List.drop_left' hbe, hb]
  rw [if_neg (by simp [hbe])]
  rw [gen_read_write m.message hpay rest]

theorem loadLoop_ok {bytes : List Nat} {m : SockMessage} {rest : List Nat}
    (cache : Cache) (h : SockMessage.read_from bytes = .ok (m, rest)) :
    loadLoop bytes cache = loadLoop rest (insert_sock_message cache m) := by
  rw [loadLoop]
  split
  · rename_i m' rest' heq
    rw [h] at heq
    simp only [Except.ok.injEq, Prod.mk.injEq] at heq
    rw [heq.1, heq.2]
  · rename_i heq
    rw [h] at heq
    exact absurd heq (by simp)
  · rename_i s heq
    rw [h] at heq
    exact absurd heq (by simp)

theorem loadLoop_eof {bytes : List Nat} (cache : Cache)
    (h : SockMessage.read_from bytes = .error .eof) :
    loadLoop bytes cache = .ok cache := by
  rw [loadLoop]
  split
  · rename_i m' rest' heq
    rw [h] at heq
    exact absurd heq (by simp)
  · rfl
  · rename_i s heq
    rw [h] at heq
    simp at heq

theorem read_from_nil : SockMessage.read_from [] = .error .eof := by
  unfold SockMessage.read_from
  rw [if_pos (by simp [SOCK_NAME_LEN])]

theorem loadLoop_encode (rs : List SockMessage) (h : ∀ m ∈ rs, ValidRecord m)
    (tail : List Nat) (cache : Cache) :
    loadLoop (joinAll (rs.map SockMessage.write_to) ++ tail) cache =
      loadLoop tail (rs.foldl insert_sock_message cache) := by
  induction rs generalizing cache with
  | nil => simp [joinAll]
  | cons m rest ih =>
    have hm : ValidRecord m := h m (by simp)
    have hrest : ∀ x ∈ rest, ValidRecord x := fun x hx => h x (by simp [hx])
    have hsplit : joinAll ((m :: rest).map SockMessage.write_to) ++ tail =
        m.write_to ++ (joinAll (rest.map SockMessage.write_to) ++ tail) := by
      simp [joinAll]
    rw [hsplit, loadLoop_ok cache (sock_read_write m hm _)]
    exact ih hrest (insert_sock_message cache m)

theorem joinAll_append {α : Type} (a b : List (List α)) :
    joinAll (a ++ b) = joinAll a ++ joinAll b := by
  induction a with
  | nil => simp [joinAll]
  | cons l ls ih => simp [joinAll, ih]

theorem mem_joinAll {α : Type} {x : α} {ls : List (List α)} :
    x ∈ joinAll ls ↔ ∃ l ∈ ls, x ∈ l := by
  induction ls with
  | nil => simp [joinAll]
  | cons l rest ih => simp [joinAll, ih]

theorem dumpBytes_eq (c : Cache) :
    dumpBytes c = joinAll ((allRecords c).map SockMessage.write_to) := by
  induction c with
  | nil => rfl
  | cons kv rest ih =>
    simp only [dumpBytes, allRecords, List.map_cons, joinAll] at *
    rw [ih, List.map_append, joinAll_append]

theorem get_messages_insert (c : Cache) (m : SockMessage) (key : List Nat) :
    get_messages (insert_sock_message c m) key =
      get_messages c key ++ (if m.sock_name = key then [m] else []) := by
  induction c with
  | nil =>
    by_cases h : m.sock_name = key <;>
      simp [insert_sock_message, get_messages, lookupEntry, h]
  | cons kv rest ih =>
    obtain ⟨k, v⟩ := kv
    by_cases hk : k = m.sock_name
    · subst hk
      by_cases hkey : m.sock_name = key <;>
        simp [insert_sock_message, get_messages, lookupEntry, hkey]
    · by_cases hkey : k = key
      · subst hkey
        have hm : ¬ m.sock_name = k := fun h => hk h.symm
        simp [insert_sock_message, get_messages, lookupEntry, hk, hm]
      · simp only [insert_sock_message, if_neg hk, get_messages, lookupEntry,
          if_neg hkey]
        exact ih

theorem get_messages_foldl_insert (rs : List SockMessage) (c : Cache)
    (key : List Nat) :
    get_messages (rs.foldl insert_sock_message c) key =
      get_messages c key ++ rs.filter (fun m => decide (m.sock_name = key)) := by
  induction rs generalizing c with
  | nil => simp
  | cons m rest ih =>
    rw [List.foldl_cons, ih, get_messages_insert, List.filter_cons,
      List.append_assoc]
    by_cases h : m.sock_name = key <;> simp [h]

theorem get_messages_eq_filter {c : Cache} (hwf : WFCache c) (key : List Nat) :
    get_messages c key =
      (allRecords c).filter (fun m => decide (m.sock_name = key)) := by
  obtain ⟨hnd, htag⟩ := hwf
  induction c with
  | nil => simp [get_messages, lookupEntry, allRecords, joinAll]
  | cons kv rest ih =>
    obtain ⟨k, v⟩ := kv
    simp only [List.map_cons, List.nodup_cons] at hnd
    have htagv : ∀ m ∈ v, m.sock_name = k := fun m hm => htag (k, v) (by simp) m hm
    have htagrest : ∀ kv ∈ rest, ∀ m ∈ kv.2, m.sock_name = kv.1 :=
      fun kv hkv m hm => htag kv (by simp [hkv]) m hm
    have hall : allRecords ((k, v) :: rest) = v ++ allRecords rest := by
      simp [allRecords, joinAll]
    by_cases hk : k = key
    · subst hk
      have h1 : v.filter (fun m => decide (m.sock_name = k)) = v :=
        List.filter_eq_self.mpr (fun m hm => by simp [htagv m hm])
      have h2 : (allRecords rest).filter (fun m => decide (m.sock_name = k)) = [] := by
        apply List.filter_eq_nil_iff.mpr
        intro m hm
        obtain ⟨l, hl, hml⟩ := mem_joinAll.mp hm
        obtain ⟨kv, hkv, rfl⟩ := List.mem_map.mp hl
        have := htagrest kv hkv m hml
        have hkne : kv.1 ≠ k := by
          intro hcontra
          exact hnd.1 (by
            rw [← hcontra]
            exact List.mem_map.mpr ⟨kv, hkv, rfl⟩)
        simp [this, hkne]
      rw [hall, List.filter_append, h1, h2, List.append_nil]
      simp [get_messages, lookupEntry]
    · have h1 : v.filter (fun m => decide (m.sock_name = key)) = [] := by
        apply List.filter_eq_nil_iff.mpr
        intro m hm
        simp [htagv m hm, hk]
      rw [hall, List.filter_append, h1, List.nil_append]
      rw [← ih hnd.2 htagrest]
      simp [get_messages, lookupEntry, hk]

theorem load_dumpBytes {s : MessageStore}
    (hv : ∀ kv ∈ s.cache, ∀ m ∈ kv.2, ValidRecord m) :
    MessageStore.load s.dump.file =
      .ok ⟨s.dump.file, (allRecords s.cache).foldl insert_sock_message []⟩ := by
  have hvall : ∀ m ∈ allRecords s.cache, ValidRecord m := by
    intro m hm
    obtain ⟨l, hl, hml⟩ := mem_joinAll.mp hm
    obtain ⟨kv, hkv, rfl⟩ := List.mem_map.mp hl
    exact hv kv hkv m hml
  have hfile : s.dump.file = joinAll ((allRecords s.cache).map SockMessage.write_to) :=
    dumpBytes_eq s.cache
  have hload : loadLoop s.dump.file [] =
      .ok ((allRecords s.cache).foldl insert_sock_message []) := by
    rw [hfile]
    have h := loadLoop_encode (allRecords s.cache) hvall [] []
    rw [List.append_nil] at h
    rw [h, loadLoop_eof _ read_from_nil]
  unfold MessageStore.load
  rw [hload]

theorem nat_max_succ_succ (a b : Nat) :
    Nat.max (a + 1) (b + 1) = Nat.max a b + 1 := by
  simp only [Nat.max_def]
  split_ifs <;> omega

theorem nat_zero_max (a : Nat) : Nat.max 0 a = a := by
  simp [Nat.max_def]

theorem nat_max_right_comm (a b c : Nat) :
    Nat.max (Nat.max a b) c = Nat.max (Nat.max a c) b := by
  simp only [Nat.max_def]
  split_ifs <;> omega

theorem replayNextId_step_eq :
    (fun (id : Nat) (m : SockMessage) => if id ≤ m.id then m.id + 1 else id) =
      (fun (id : Nat) (m : SockMessage) => Nat.max id (m.id + 1)) := by
  funext id m
  simp only [Nat.max_def]
  split_ifs <;> omega

theorem foldl_max_shift (ids : List Nat) (c : Nat) :
    List.foldl (fun a b => Nat.max a (b + 1)) (c + 1) ids =
      List.foldl Nat.max c ids + 1 := by
  induction ids generalizing c with
  | nil => rfl
  | cons x xs ih =>
    simp only [List.foldl_cons]
    rw [nat_max_succ_succ c x, ih]

theorem replay_fold_no_wrap :
    ∀ (l : List SockMessage), (∀ m ∈ l, m.id < 2 ^ 64 - 1) → ∀ (a : Nat),
      l.foldl (fun id m => if id ≤ m.id then (m.id + 1) % 2 ^ 64 else id) a =
        l.foldl (fun id m => if id ≤ m.id then m.id + 1 else id) a := by
  intro l
  induction l with
  | nil => intro _ a; rfl
  | cons m rest ih =>
    intro h a
    have hmod : (m.id + 1) % 2 ^ 64 = m.id + 1 :=
      Nat.mod_eq_of_lt (by have := h m (by simp); omega)
    simp only [List.foldl_cons, hmod]
    exact ih (fun x hx => h x (by simp [hx])) _

theorem replayNextId_eq_max (l : List SockMessage)
    (hbound : ∀ m ∈ l, m.id < 2 ^ 64 - 1) :
    replayNextId l =
      if l.isEmpty then 0 else (l.map (fun m => m.id)).foldl Nat.max 0 + 1 := by
  rw [replayNextId, replay_fold_no_wrap l hbound 0, replayNextId_step_eq]
  cases l with
  | nil => rfl
  | cons m rest =>
    rw [if_neg (by simp)]
    simp only [List.map_cons, List.foldl_cons]
    rw [nat_zero_max, nat_zero_max]
    rw [← List.foldl_map (fun m : SockMessage => m.id)
      (fun a b => Nat.max a (b + 1)) rest]
    rw [foldl_max_shift (rest.map (fun m => m.id)) m.id, List.foldl_map]

theorem replayNextId_perm {l l' : List SockMessage}
    (hbound : ∀ m ∈ l, m.id < 2 ^ 64 - 1) (h : l.Perm l') :
    replayNextId l = replayNextId l' := by
  have hbound' : ∀ m ∈ l', m.id < 2 ^ 64 - 1 :=
    fun m hm => hbound m (h.mem_iff.mpr hm)
  rw [replayNextId, replayNextId, replay_fold_no_wrap l hbound 0,
    replay_fold_no_wrap l' hbound' 0, replayNextId_step_eq]
  apply h.foldl_eq'
  intro x _ y _ z
  exact nat_max_right_comm z (x.id + 1) (y.id + 1)

theorem firstInsertId_append_handles (stored : List SockMessage) (t : List Event) :
    firstInsertId (stored.map (fun m => Event.handle m.id m.message) ++ t) =
      firstInsertId t := by
  induction stored with
  | nil => rfl
  | cons m rest ih => simpa [firstInsertId] using ih

theorem insertAll_cache (rs : List SockMessage)
    (h : ∀ m ∈ rs, m.sock_name.length = SOCK_NAME_LEN) (s : MessageStore) :
    ∃ s', insertAll s rs = some s' ∧
      s'.cache = rs.foldl insert_sock_message s.cache := by
  induction rs generalizing s with
  | nil => exact ⟨s, rfl, rfl⟩
  | cons m rest ih =>
    have hm : SOCK_NAME_LEN = m.sock_name.length := (h m (by simp)).symm
    have hins : s.insert m.sock_name m.id m.message =
        some (MessageStore.dump { s with cache := insert_sock_message s.cache m }) := by
      unfold MessageStore.insert
      rw [if_pos hm]
    obtain ⟨s', hs', hc⟩ := ih (fun x hx => h x (by simp [hx]))
      (MessageStore.dump { s with cache := insert_sock_message s.cache m })
    exact ⟨s', by rw [insertAll, hins]; exact hs', by rw [hc]; rfl⟩

theorem removeAll_cache (ids : List Nat) (key : List Nat) (s : MessageStore) :
    (removeAll s key ids).cache =
      ids.foldl (fun c i => remove_sock_message c key i) s.cache := by
  induction ids generalizing s with
  | nil => rfl
  | cons i rest ih => rw [removeAll, ih, List.foldl_cons]; rfl

theorem get_messages_remove (c : Cache) (key : List Nat) (id : Nat) :
    get_messages (remove_sock_message c key id) key =
      (get_messages c key).filter (fun x => decide (x.id ≠ id)) := by
  induction c with
  | nil => rfl
  | cons kv rest ih =>
    obtain ⟨k, v⟩ := kv
    by_cases hk : k = key
    · subst hk
      simp [remove_sock_message, get_messages, lookupEntry]
    · simp only [remove_sock_message, if_neg hk, get_messages, lookupEntry] at *
      exact ih

theorem get_messages_remove_other (c : Cache) (name key : List Nat) (id : Nat)
    (h : key ≠ name) :
    get_messages (remove_sock_message c name id) key = get_messages c key := by
  induction c with
  | nil => rfl
  | cons kv rest ih =>
    obtain ⟨k, v⟩ := kv
    by_cases hk : k = name
    · have hkkey : ¬ k = key := fun hc => h (by rw [← hc, hk])
      rw [remove_sock_message, if_pos hk]
      simp only [get_messages, lookupEntry, if_neg hkkey]
    · rw [remove_sock_message, if_neg hk]
      by_cases hkey : k = key
      · simp only [get_messages, lookupEntry, if_pos hkey]
      · simp only [get_messages, lookupEntry, if_neg hkey]
        exact ih

theorem remove_sock_message_noop (c : Cache) (name : List Nat) (id : Nat)
    (h : lookupEntry c name = none) :
    remove_sock_message c name id = c := by
  induction c with
  | nil => rfl
  | cons kv rest ih =>
    obtain ⟨k, v⟩ := kv
    by_cases hk : k = name
    · rw [lookupEntry, if_pos hk] at h
      exact absurd h (by simp)
    · rw [lookupEntry, if_neg hk] at h
      rw [remove_sock_message, if_neg hk, ih h]

theorem get_messages_removeAll (ids : List Nat) (key : List Nat) (c : Cache) :
    get_messages (ids.foldl (fun c i => remove_sock_message c key i) c) key =
      (get_messages c key).filter (fun x => decide (x.id ∉ ids)) := by
  induction ids generalizing c with
  | nil => simp
  | cons i rest ih =>
    rw [List.foldl_cons, ih, get_messages_remove, List.filter_filter]
    apply List.filter_congr
    intro x _
    by_cases h1 : x.id = i <;> by_cases h2 : x.id ∈ rest <;>
      simp [h1, h2, List.mem_cons]

theorem filter_not_mem_length (recs : List SockMessage) (rem : List Nat)
    (hids : (recs.map (fun m => m.id)).Nodup) (hrem : rem.Nodup)
    (hsub : ∀ i ∈ rem, i ∈ recs.map (fun m => m.id)) :
    (recs.filter (fun m => decide (m.id ∉ rem))).length =
      recs.length - rem.length := by
  have hperm : ((recs.map (fun m => m.id)).filter (fun i => decide (i ∈ rem))).Perm rem := by
    rw [List.perm_ext_iff_of_nodup (hids.filter _) hrem]
    intro a
    simp only [List.mem_filter, decide_eq_true_eq]
    exact ⟨fun h => h.2, fun h => ⟨hsub a h, h⟩⟩
  have hin : (recs.filter (fun m => decide (m.id ∈ rem))).length = rem.length := by
    have h1 : (recs.filter (fun m => decide (m.id ∈ rem))).length =
        ((recs.map (fun m => m.id)).filter (fun i => decide (i ∈ rem))).length := by
      rw [← List.countP_eq_length_filter, ← List.countP_eq_length_filter,
        List.countP_map]
      rfl
    rw [h1, hperm.length_eq]
  have hsplit := List.length_eq_countP_add_countP
    (fun m => decide (m.id ∈ rem)) recs
  rw [List.countP_eq_length_filter, List.countP_eq_length_filter] at hsplit
  have heq : (recs.filter (fun m => decide (m.id ∉ rem))).length =
      (recs.filter (fun m => ¬ decide (m.id ∈ rem))).length := by
    congr 1
    apply List.filter_congr
    intro x _
    by_cases h : x.id ∈ rem <;> simp [h]
  omega

/-!
# Claim theorems
-/

/-- C1: for every envelope dequeued by the write loop, exactly one
outcome is delivered on that envelope's result channel — the write
result itself: one success report on a successful stream write, one
failure report on a failed one, never zero and never two.  (The
unconditional success report after the failure branch hits an
already-consumed one-shot channel and delivers nothing.) -/
theorem write_loop_exactly_one_outcome
    (envs : List (GenMessage × Except Err Unit)) :
    writer_task envs = envs.map (fun p => [p.2]) := by
  unfold writer_task
  induction envs with
  | nil => rfl
  | cons p rest ih =>
    rw [List.map_cons, List.map_cons, ih]
    congr 1
    cases h : p.2 with
    | ok u => simp [writeLoopBody, send_result]
    | error e => simp [writeLoopBody, send_result]

/-- C2 (evaluating the code at the failing input): a durable file holding
one complete record followed by a truncated trailing record — 5 bytes,
fewer than the fixed 36-byte header — loads successfully with the records
read so far, because `read_exact`'s `UnexpectedEof` after a partial read
is mapped to `Error::Eof` and treated as clean end of stream; the claimed
fatal load error does not occur (the source's `len < SOCK_NAME_LEN` check
is unreachable). -/
theorem load_truncated_header_not_fatal :
    MessageStore.load (recA0.write_to ++ List.replicate 5 65) =
      .ok ⟨recA0.write_to ++ List.replicate 5 65, [(nameA, [recA0])]⟩ := by
  have h1 : SockMessage.read_from (recA0.write_to ++ List.replicate 5 65) =
      .ok (recA0, List.replicate 5 65) :=
    sock_read_write recA0 (by decide) _
  have h2 : SockMessage.read_from (List.replicate 5 65) = .error .eof := by
    unfold SockMessage.read_from
    rw [if_pos (by decide)]
  have hloop : loadLoop (recA0.write_to ++ List.replicate 5 65) [] =
      .ok [(nameA, [recA0])] := by
    rw [loadLoop_ok _ h1, loadLoop_eof _ h2]
    rfl
  unfold MessageStore.load
  rw [hloop]

/-- C3: encoding a durable record with `SockMessage::write_to` and
decoding the produced bytes with `SockMessage::read_from` yields the
identical `(connection_id, message_id, message)` triple, for every record
whose `connection_id` is exactly 36 bytes (and is, as every Rust
`String`, valid UTF-8, with a `u64` id and an encodable message). -/
theorem record_roundtrip (m : SockMessage) (h : ValidRecord m) :
    SockMessage.read_from m.write_to = .ok (m, []) := by
  have hrt := sock_read_write m h []
  rwa [List.append_nil] at hrt

theorem record_roundtrip_witness :
    SockMessage.read_from recA0.write_to = .ok (recA0, []) :=
  record_roundtrip recA0 (by decide)

/-- C4: after N inserts for one identity and M < N removals that each
delete one previously inserted record of that identity, `get_messages`
returns exactly the N−M records inserted and not removed, in their
original insertion order. -/
theorem store_insert_remove_order (key : List Nat) (recs : List SockMessage)
    (rem : List Nat)
    (hkey : key.length = SOCK_NAME_LEN)
    (hname : ∀ m ∈ recs, m.sock_name = key)
    (hids : (recs.map (fun m => m.id)).Nodup)
    (hrem : rem.Nodup)
    (hsub : ∀ i ∈ rem, i ∈ recs.map (fun m => m.id))
    (hMN : rem.length < recs.length) :
    ∃ s', insertAll ⟨[], []⟩ recs = some s' ∧
      get_messages (removeAll s' key rem).cache key =
        recs.filter (fun m => decide (m.id ∉ rem)) ∧
      (get_messages (removeAll s' key rem).cache key).length =
        recs.length - rem.length := by
  obtain ⟨s', hs', hcache⟩ := insertAll_cache recs
    (fun m hm => by rw [hname m hm]; exact hkey) ⟨[], []⟩
  have hget : get_messages (removeAll s' key rem).cache key =
      recs.filter (fun m => decide (m.id ∉ rem)) := by
    rw [removeAll_cache, get_messages_removeAll, hcache]
    rw [get_messages_foldl_insert]
    have hfil : recs.filter (fun m => decide (m.sock_name = key)) = recs :=
      List.filter_eq_self.mpr (fun m hm => by simp [hname m hm])
    simp [get_messages, lookupEntry, hfil]
  refine ⟨s', hs', hget, ?_⟩
  rw [hget]
  exact filter_not_mem_length recs rem hids hrem hsub

theorem store_insert_remove_order_witness :
    ∃ s', insertAll ⟨[], []⟩ [recA0, recA1, recA2] = some s' ∧
      get_messages (removeAll s' nameA [1]).cache nameA =
        [recA0, recA1, recA2].filter (fun m => decide (m.id ∉ [1])) ∧
      (get_messages (removeAll s' nameA [1]).cache nameA).length = 3 - 1 :=
  store_insert_remove_order nameA [recA0, recA1, recA2] [1]
    (by decide) (by decide) (by decide) (by decide) (by decide) (by decide)

/-- C5: loading the file produced by a store's `dump` yields a store whose
per-identity record sequences equal the original's, in order and content,
for every well-formed store of representable records. -/
theorem dump_load_roundtrip (s : MessageStore) (hwf : WFCache s.cache)
    (hv : ∀ kv ∈ s.cache, ∀ m ∈ kv.2, ValidRecord m) :
    ∃ s', MessageStore.load s.dump.file = .ok s' ∧
      ∀ key, get_messages s'.cache key = get_messages s.cache key := by
  refine ⟨⟨s.dump.file, (allRecords s.cache).foldl insert_sock_message []⟩,
    load_dumpBytes hv, ?_⟩
  intro key
  show get_messages ((allRecords s.cache).foldl insert_sock_message []) key = _
  rw [get_messages_foldl_insert, ← get_messages_eq_filter hwf key]
  simp [get_messages, lookupEntry]

theorem dump_load_roundtrip_witness :
    ∃ s', MessageStore.load storeA.dump.file = .ok s' ∧
      ∀ key, get_messages s'.cache key = get_messages storeA.cache key :=
  dump_load_roundtrip storeA (by decide) (by decide)

/-- C6 (counterexample to the claim as stated): the ids come from
`read_u64` unchecked, so a replayed record with id `2^64 - 1` is a
loadable input; there the wrapping `u64` bump makes the first fresh id 0
— not one greater than the maximum id, which would be `2^64` — and the
result depends on the traversal order of the replayed records
(0 for one order, 6 for the other). -/
theorem replay_wrap_counterexample :
    firstInsertId (runWithMessageStoreTrace nameA
      [⟨nameA, 5, msg1⟩, ⟨nameA, 2 ^ 64 - 1, msg1⟩] [msg2]) = some 0 ∧
    firstInsertId (runWithMessageStoreTrace nameA
      [⟨nameA, 2 ^ 64 - 1, msg1⟩, ⟨nameA, 5, msg1⟩] [msg2]) = some 6 ∧
    (0 : Nat) ≠ 2 ^ 64 - 1 + 1 :=
  ⟨by decide, by decide, by decide⟩

/-- C6 (amended): in replay-integrated run mode, when every replayed id
is below `2^64 - 1` — so the `u64` bump `m.id + 1` cannot wrap — the id
of the first fresh-frame `insert` equals one greater than the maximum id
among the replayed records (0 when none were replayed), and is invariant
under permuting the traversal order of the replayed records. -/
theorem replay_first_fresh_id (name : List Nat)
    (stored stored' : List SockMessage) (f : GenMessage) (fs : List GenMessage)
    (hbound : ∀ m ∈ stored, m.id < 2 ^ 64 - 1)
    (hperm : stored.Perm stored') :
    firstInsertId (runWithMessageStoreTrace name stored (f :: fs)) =
      some (if stored.isEmpty then 0
        else (stored.map (fun m => m.id)).foldl Nat.max 0 + 1) ∧
    firstInsertId (runWithMessageStoreTrace name stored' (f :: fs)) =
      firstInsertId (runWithMessageStoreTrace name stored (f :: fs)) := by
  have hfirst : ∀ (l : List SockMessage),
      firstInsertId (runWithMessageStoreTrace name l (f :: fs)) =
        some (replayNextId l) := by
    intro l
    rw [runWithMessageStoreTrace, firstInsertId_append_handles]
    rfl
  constructor
  · rw [hfirst stored, replayNextId_eq_max stored hbound]
  · rw [hfirst stored, hfirst stored', replayNextId_perm hbound hperm]

theorem replay_first_fresh_id_witness :
    firstInsertId (runWithMessageStoreTrace nameA
      [⟨nameA, 2, msg1⟩, ⟨nameA, 5, msg1⟩, ⟨nameA, 7, msg1⟩] [msg2]) = some 8 ∧
    firstInsertId (runWithMessageStoreTrace nameA
      [⟨nameA, 7, msg1⟩, ⟨nameA, 2, msg1⟩, ⟨nameA, 5, msg1⟩] [msg2]) = some 8 := by
  have h := replay_first_fresh_id nameA
    [⟨nameA, 2, msg1⟩, ⟨nameA, 5, msg1⟩, ⟨nameA, 7, msg1⟩]
    [⟨nameA, 7, msg1⟩, ⟨nameA, 2, msg1⟩, ⟨nameA, 5, msg1⟩] msg2 []
    (by decide) (by decide)
  refine ⟨?_, ?_⟩
  · rw [h.1]; rfl
  · rw [h.2, h.1]; rfl

/-- C7 (counterexample to the claim as stated): with the next id at
`2^64 - 1` — reachable, since `replayNextId` of a loaded record with id
`2^64 - 2` yields it — the first fresh frame is inserted with id
`2^64 - 1` and the second with id 0: the wrapping `u64` increment does
not increase the assigned id by one between consecutive frames. -/
theorem fresh_wrap_counterexample :
    (freshLoopTrace nameA (2 ^ 64 - 1) [msg1, msg2])[0]? =
      some (Event.insert nameA (2 ^ 64 - 1) msg1) ∧
    (freshLoopTrace nameA (2 ^ 64 - 1) [msg1, msg2])[2]? =
      some (Event.insert nameA 0 msg2) ∧
    (0 : Nat) ≠ 2 ^ 64 - 1 + 1 :=
  ⟨by decide, by decide, by decide⟩

/-- C7 (amended): in replay-integrated run mode, the k-th successfully
decoded fresh frame produces the `message_store.insert` call immediately
before the `handle_msg` call, both with the same id `(start + k) % 2^64`
— the id advances by exactly one modulo `2^64` between consecutive
frames, wrapping to 0 past the `u64` maximum instead of increasing. -/
theorem persist_before_dispatch (name : List Nat)
    (h : name.length = SOCK_NAME_LEN) (start : Nat) (hstart : start < 2 ^ 64)
    (frames : List GenMessage) (k : Nat) :
    (freshLoopTrace name start frames)[2 * k]? =
      frames[k]?.map (fun m => Event.insert name ((start + k) % 2 ^ 64) m) ∧
    (freshLoopTrace name start frames)[2 * k + 1]? =
      frames[k]?.map (fun m => Event.handle ((start + k) % 2 ^ 64) m) := by
  induction frames generalizing start k with
  | nil => simp [freshLoopTrace]
  | cons msg rest ih =>
    rw [freshLoopTrace, if_pos h]
    cases k with
    | zero => simp <;> omega
    | succ k =>
      have e1 : 2 * (k + 1) = 2 * k + 1 + 1 := by ring
      rw [e1]
      simp only [List.getElem?_cons_succ]
      have he : ((start + 1) % 2 ^ 64 + k) % 2 ^ 64 = (start + (k + 1)) % 2 ^ 64 := by
        rw [Nat.mod_add_mod]
        congr 1
        omega
      rw [← he]
      exact ih ((start + 1) % 2 ^ 64) (Nat.mod_lt _ (by norm_num)) k

theorem persist_before_dispatch_witness :
    (freshLoopTrace nameA 5 [msg1, msg2])[2 * 1]? =
      ([msg1, msg2] : List GenMessage)[1]?.map
        (fun m => Event.insert nameA ((5 + 1) % 2 ^ 64) m) ∧
    (freshLoopTrace nameA 5 [msg1, msg2])[2 * 1 + 1]? =
      ([msg1, msg2] : List GenMessage)[1]?.map
        (fun m => Event.handle ((5 + 1) % 2 ^ 64) m) :=
  persist_before_dispatch nameA (by decide) 5 (by norm_num) [msg1, msg2] 1

/-- C8: `MessageStore::insert` requires a 36-byte `connection_id`,
enforced at insert time (any other length fails the assertion and stores
nothing); under the precondition it appends the record to that
connection's in-memory sequence — leaving every other identity's sequence
unchanged — and then rewrites the durable file from the new state. -/
theorem insert_enforces_length (s : MessageStore) (name : List Nat)
    (id : Nat) (m : GenMessage) :
    (name.length ≠ SOCK_NAME_LEN → s.insert name id m = none) ∧
    (name.length = SOCK_NAME_LEN → ∃ s',
      s.insert name id m = some s' ∧
      get_messages s'.cache name = get_messages s.cache name ++ [⟨name, id, m⟩] ∧
      (∀ key, key ≠ name → get_messages s'.cache key = get_messages s.cache key) ∧
      s'.file = dumpBytes s'.cache) := by
  constructor
  · intro hne
    unfold MessageStore.insert
    rw [if_neg (fun hc => hne hc.symm)]
  · intro heq
    refine ⟨MessageStore.dump { s with cache := insert_sock_message s.cache ⟨name, id, m⟩ },
      ?_, ?_, ?_, rfl⟩
    · unfold MessageStore.insert
      rw [if_pos heq.symm]
    · show get_messages (insert_sock_message s.cache ⟨name, id, m⟩) name = _
      rw [get_messages_insert]
      simp
    · intro key hkey
      show get_messages (insert_sock_message s.cache ⟨name, id, m⟩) key = _
      rw [get_messages_insert]
      have : ¬ (⟨name, id, m⟩ : SockMessage).sock_name = key :=
        fun hc => hkey hc.symm
      rw [if_neg this, List.append_nil]

theorem insert_enforces_length_witness :
    (MessageStore.mk [] []).insert [65] 0 msg1 = none ∧
    ∃ s', (MessageStore.mk [] []).insert nameA 0 msg1 = some s' ∧
      get_messages s'.cache nameA =
        get_messages ([] : Cache) nameA ++ [⟨nameA, 0, msg1⟩] ∧
      (∀ key, key ≠ nameA → get_messages s'.cache key = get_messages ([] : Cache) key) ∧
      s'.file = dumpBytes s'.cache :=
  ⟨(insert_enforces_length ⟨[], []⟩ [65] 0 msg1).1 (by decide),
   (insert_enforces_length ⟨[], []⟩ nameA 0 msg1).2 (by decide)⟩

/-- C9: in the plain run mode (`Connection::run`, no message store),
every invocation of the reader delegate's `handle_msg` carries id 0, for
every successfully decoded inbound frame. -/
theorem run_handle_id_zero (frames : List GenMessage) :
    runTrace frames = frames.map (Event.handle 0) := by
  induction frames with
  | nil => rfl
  | cons msg rest ih => simp [runTrace, ih]

/-- C10: `MessageStore::remove(connection_id, id)` removes from that
connection's in-memory sequence every record whose id equals the given id
(not only the first match), keeps the other records in their original
relative order, leaves every other connection's sequence unchanged, and
is a no-op on the in-memory mapping when the identity is unknown. -/
theorem remove_semantics (s : MessageStore) (name : List Nat) (id : Nat) :
    get_messages (s.remove name id).cache name =
      (get_messages s.cache name).filter (fun x => decide (x.id ≠ id)) ∧
    (∀ key, key ≠ name →
      get_messages (s.remove name id).cache key = get_messages s.cache key) ∧
    (lookupEntry s.cache name = none → (s.remove name id).cache = s.cache) :=
  ⟨get_messages_remove s.cache name id,
   fun key hk => get_messages_remove_other s.cache name key id hk,
   fun h => remove_sock_message_noop s.cache name id h⟩

theorem remove_semantics_witness :
    get_messages ((MessageStore.mk [] [(nameA, [recA1, recA0])]).remove nameA 1).cache nameA =
      (get_messages [(nameA, [recA1, recA0])] nameA).filter
        (fun x => decide (x.id ≠ 1)) ∧
    get_messages ((MessageStore.mk [] [(nameA, [recA1, recA0])]).remove nameA 1).cache nameB =
      get_messages [(nameA, [recA1, recA0])] nameB ∧
    ((MessageStore.mk [] [(nameA, [recA1, recA0])]).remove nameB 1).cache =
      [(nameA, [recA1, recA0])] :=
  ⟨(remove_semantics ⟨[], [(nameA, [recA1, recA0])]⟩ nameA 1).1,
   (remove_semantics ⟨[], [(nameA, [recA1, recA0])]⟩ nameA 1).2.1 nameB (by decide),
   (remove_semantics ⟨[], [(nameA, [recA1, recA0])]⟩ nameB 1).2.2 (by decide)⟩

end Ttrpc
